import Mathlib

/-!
Verification development for the acq400 host-side client (`acq400.py`).

The Python source is shallowly embedded:

* raw socket bytes are `Nat` values (0..255); a socket's successive
  `recv` results are a `List (List Nat)` of fragments, and a `recv`
  on a connection whose peer has closed returns the empty fragment;
* NumPy's little-endian fixed-width signed decoding (`np.frombuffer`
  with dtypes `i1`/`i2`/`i4`) is `decodeCount` over two's-complement
  little-endian bytes;
* machine integers are `Nat`/`Int` with explicit `% 2 ^ w` where the
  Python/NumPy code wraps.
-/

/-- Little-endian base-256 digits of `n`, `w` bytes wide (truncating). -/
def natToLE : Nat → Nat → List Nat
  | 0, _ => []
  | w + 1, n => n % 256 :: natToLE w (n / 256)

/-- Value of a little-endian base-256 byte list. -/
def leToNat : List Nat → Nat
  | [] => 0
  | b :: bs => b + 256 * leToNat bs

/-- Two's-complement little-endian encoding of the signed integer `x`
at width `w` bytes, as NumPy lays out `i1`/`i2`/`i4` on a little-endian
host. -/
def encodeInt (w : Nat) (x : Int) : List Nat :=
  natToLE w (x % (2 ^ (8 * w) : Int)).toNat

/-- Signed little-endian decoding of a `w`-byte group, inverse of
NumPy's `i1`/`i2`/`i4` element layout. -/
def decodeInt (w : Nat) (bs : List Nat) : Int :=
  let u := leToNat bs
  if u < 2 ^ (8 * w - 1) then (u : Int) else (u : Int) - 2 ^ (8 * w)

/-- Byte stream produced by writing each element of `xs` at width `w`. -/
def encodeList (w : Nat) (xs : List Int) : List Nat :=
  (xs.map (encodeInt w)).join

/-- `np.frombuffer(buf, dtype, count=n)`: decode the first `n` elements
of width `w` from the front of the byte buffer. -/
def decodeCount (w : Nat) : Nat → List Nat → List Int
  | 0, _ => []
  | n + 1, bs => decodeInt w (bs.take w) :: decodeCount w n (bs.drop w)

theorem natToLE_length : ∀ w n, (natToLE w n).length = w := by
  intro w
  induction w with
  | zero => intro n; rfl
  | succ w ih => intro n; simp [natToLE, ih]

theorem encodeInt_length (w : Nat) (x : Int) : (encodeInt w x).length = w :=
  natToLE_length w _

theorem mod_mul_eq_of_pos (a b c : Nat) (hb : 0 < b) (hc : 0 < c) :
    a % (b * c) = b * (a / b % c) + a % b := by
  conv_lhs => rw [← Nat.div_add_mod a b]
  rw [Nat.add_mod, Nat.mul_mod_mul_left]
  have h1 : a % b < b := Nat.mod_lt _ hb
  have h2 : a / b % c < c := Nat.mod_lt _ hc
  have hble : b ≤ b * c := by nlinarith
  have h3 : b * (a / b % c) + a % b < b * c := by
    calc b * (a / b % c) + a % b < b * (a / b % c) + b := by omega
    _ = b * (a / b % c + 1) := by ring
    _ ≤ b * c := Nat.mul_le_mul_left _ (by omega)
  rw [Nat.mod_eq_of_lt (lt_of_lt_of_le h1 hble), Nat.mod_eq_of_lt h3]

theorem leToNat_natToLE : ∀ w n, leToNat (natToLE w n) = n % 256 ^ w := by
  intro w
  induction w with
  | zero => intro n; simp [natToLE, leToNat, Nat.mod_one]
  | succ w ih =>
    intro n
    have h256 : (256 : Nat) ^ (w + 1) = 256 * 256 ^ w := by ring
    rw [natToLE, leToNat, ih, h256,
      mod_mul_eq_of_pos n 256 (256 ^ w) (by norm_num) (by positivity)]
    omega

theorem pow_split (w : Nat) (hw : 1 ≤ w) :
    (2 : Nat) ^ (8 * w) = 2 * 2 ^ (8 * w - 1) := by
  have h : 8 * w - 1 + 1 = 8 * w := by omega
  calc (2 : Nat) ^ (8 * w) = 2 ^ (8 * w - 1 + 1) := by rw [h]
  _ = 2 ^ (8 * w - 1) * 2 := pow_succ 2 _
  _ = 2 * 2 ^ (8 * w - 1) := by ring

theorem pow256_eq (w : Nat) : (256 : Nat) ^ w = 2 ^ (8 * w) := by
  have : (256 : Nat) = 2 ^ 8 := by norm_num
  rw [this, ← pow_mul]

/-- Decoding inverts encoding for any in-range value. -/
theorem decodeInt_encodeInt (w : Nat) (hw : 1 ≤ w) (x : Int)
    (h1 : -(2 ^ (8 * w - 1)) ≤ x) (h2 : x < 2 ^ (8 * w - 1)) :
    decodeInt w (encodeInt w x) = x := by
  have hMpos : (0 : Int) < 2 ^ (8 * w) := by positivity
  have hmod0 : 0 ≤ x % (2 ^ (8 * w) : Int) := Int.emod_nonneg x (ne_of_gt hMpos)
  have hmodM : x % (2 ^ (8 * w) : Int) < 2 ^ (8 * w) := Int.emod_lt_of_pos x hMpos
  have htoNat : ((x % (2 ^ (8 * w) : Int)).toNat : Int) = x % (2 ^ (8 * w) : Int) :=
    Int.toNat_of_nonneg hmod0
  have hcastM : (((2 : Nat) ^ (8 * w) : Nat) : Int) = 2 ^ (8 * w) := by push_cast; ring
  have hsmall : (x % (2 ^ (8 * w) : Int)).toNat < 256 ^ w := by
    rw [pow256_eq]
    have h : ((x % (2 ^ (8 * w) : Int)).toNat : Int) < (((2 : Nat) ^ (8 * w) : Nat) : Int) := by
      rw [htoNat, hcastM]; exact hmodM
    exact_mod_cast h
  have hsplitN : (2 : Nat) ^ (8 * w) = 2 * 2 ^ (8 * w - 1) := pow_split w hw
  have hsplit : (2 : Int) ^ (8 * w) = 2 * 2 ^ (8 * w - 1) := by
    have h := congrArg (fun n : Nat => (n : Int)) hsplitN
    push_cast at h
    exact h
  have hcastH : (((2 : Nat) ^ (8 * w - 1) : Nat) : Int) = 2 ^ (8 * w - 1) := by
    push_cast; ring
  rw [encodeInt, decodeInt]
  simp only [leToNat_natToLE]
  rw [Nat.mod_eq_of_lt hsmall]
  rcases le_or_lt 0 x with hx | hx
  · have hxM : x < 2 ^ (8 * w) := by rw [hsplit]; omega
    have hemod : x % (2 ^ (8 * w) : Int) = x := Int.emod_eq_of_lt hx hxM
    rw [hemod]
    have hcond : x.toNat < 2 ^ (8 * w - 1) := by
      have h : (x.toNat : Int) < (((2 : Nat) ^ (8 * w - 1) : Nat) : Int) := by
        rw [Int.toNat_of_nonneg hx, hcastH]; exact h2
      exact_mod_cast h
    rw [if_pos hcond, Int.toNat_of_nonneg hx]
  · have hge : 0 ≤ x + 2 ^ (8 * w) := by rw [hsplit]; omega
    have hemod : x % (2 ^ (8 * w) : Int) = x + 2 ^ (8 * w) := by
      have h0 : (x + 2 ^ (8 * w) * 1) % (2 ^ (8 * w) : Int) = x % (2 ^ (8 * w) : Int) :=
        Int.add_mul_emod_self_left x (2 ^ (8 * w)) 1
      rw [mul_one] at h0
      rw [← h0, Int.emod_eq_of_lt hge (by omega)]
    rw [hemod]
    have hHle : (2 : Int) ^ (8 * w - 1) ≤ x + 2 ^ (8 * w) := by rw [hsplit]; omega
    have hcond : ¬ (x + 2 ^ (8 * w)).toNat < 2 ^ (8 * w - 1) := by
      intro hcon
      have h : ((x + 2 ^ (8 * w)).toNat : Int) < (((2 : Nat) ^ (8 * w - 1) : Nat) : Int) := by
        exact_mod_cast hcon
      rw [Int.toNat_of_nonneg hge, hcastH] at h
      omega
    rw [if_neg hcond, Int.toNat_of_nonneg hge]
    ring

theorem encodeList_length (w : Nat) (xs : List Int) :
    (encodeList w xs).length = xs.length * w := by
  induction xs with
  | nil => simp [encodeList]
  | cons x xs ih =>
    simp only [encodeList, List.map_cons, List.join_cons, List.length_append,
      encodeInt_length]
    simp only [encodeList] at ih
    rw [ih]
    simp [List.length_cons]
    ring

theorem decodeCount_length (w : Nat) : ∀ n bs, (decodeCount w n bs).length = n := by
  intro n
  induction n with
  | zero => intro bs; rfl
  | succ n ih => intro bs; simp [decodeCount, ih]

/-- Round trip: decoding `xs.length` elements from the encoded stream
(with arbitrary surplus bytes behind it) gives back `xs`. -/
theorem decodeCount_encodeList (w : Nat) (hw : 1 ≤ w) :
    ∀ (xs : List Int) (tail : List Nat),
      (∀ x ∈ xs, -(2 ^ (8 * w - 1)) ≤ x ∧ x < 2 ^ (8 * w - 1)) →
      decodeCount w xs.length (encodeList w xs ++ tail) = xs := by
  intro xs
  induction xs with
  | nil => intro tail _; rfl
  | cons x xs ih =>
    intro tail hrange
    have hx := hrange x (List.mem_cons_self x xs)
    have hlen : (encodeInt w x).length = w := encodeInt_length w x
    have happ : encodeList w (x :: xs) ++ tail
        = encodeInt w x ++ (encodeList w xs ++ tail) := by
      simp [encodeList, List.append_assoc]
    rw [List.length_cons, happ, decodeCount]
    have htake : (encodeInt w x ++ (encodeList w xs ++ tail)).take w = encodeInt w x := by
      have h := List.take_left (encodeInt w x) (encodeList w xs ++ tail)
      rwa [hlen] at h
    have hdrop : (encodeInt w x ++ (encodeList w xs ++ tail)).drop w
        = encodeList w xs ++ tail := by
      have h := List.drop_left (encodeInt w x) (encodeList w xs ++ tail)
      rwa [hlen] at h
    rw [htake, hdrop, decodeInt_encodeInt w hw x hx.1 hx.2,
      ih tail (fun y hy => hrange y (List.mem_cons_of_mem x hy))]

/-!
## ChannelClient / RawClient (`acq400.py` lines 126-220)

A socket is modelled by the list of fragments its successive `recv`
calls deliver; once the list is exhausted (or an explicit empty
fragment is reached) the peer has closed and every further `recv`
returns the empty byte string.  `maxbuf` only caps fragment sizes and
plays no role in the control flow, so it is not modelled.
-/

/-- Result of a data-client read.  `hang` stands for the non-terminating
`recv` loop that `ChannelClient.read` enters when the connection closes
before enough bytes arrived (`recv` keeps returning `b""` and the buffer
stops growing).  `valueError` stands for the exceptions NumPy raises in
`np.frombuffer` (plus the `KeyError` for a width outside the `_dtypes`
table). -/
inductive ReadResult where
  | ok (data : List Int)
  | hang
  | valueError
  deriving DecidableEq

/-- The `while True: buffer = recv(); if not buffer: ...` accumulation
loop of `ChannelClient.read` for `ndata in {0, -1}`: gather fragments
until the zero-length receive. -/
def recv_until_eof (total : List Nat) : List (List Nat) → List Nat
  | [] => total
  | c :: cs => if c = [] then total else recv_until_eof (total ++ c) cs

/-- The `while len(buffer) < ndata*data_size: buffer += recv()` loop of
`ChannelClient.read`.  `none` means the loop never terminates: the
fragments ran out (peer closed, `recv` returns `b""` forever) while the
buffer was still short. -/
def recv_until_enough (need : Int) (buffer : List Nat) : List (List Nat) → Option (List Nat)
  | [] => if (buffer.length : Int) < need then none else some buffer
  | c :: cs =>
    if (buffer.length : Int) < need then recv_until_enough need (buffer ++ c) cs
    else some buffer

/-- `np.frombuffer(buf, dtype, count=-1)` (also any negative count):
requires the buffer length to be a multiple of the element size and
decodes the whole buffer. -/
def np_frombuffer_all (w : Nat) (bs : List Nat) : ReadResult :=
  if w ≠ 0 ∧ w ∣ bs.length then .ok (decodeCount w (bs.length / w) bs)
  else .valueError

/-- `ChannelClient.read(ndata, data_size)` (`acq400.py` lines 186-220).
The first `recv` happens before any branch; `ndata == 0 or ndata == -1`
selects the read-to-end-of-stream loop; any other `ndata` goes through
the fixed-count accumulation loop and a `count=ndata` decode. -/
def ChannelClient.read (ndata : Int) (data_size : Nat)
    (chunks : List (List Nat)) : ReadResult :=
  if data_size = 1 ∨ data_size = 2 ∨ data_size = 4 then
    let buffer := chunks.headD []
    let rest := chunks.tail
    if ndata = 0 ∨ ndata = -1 then
      np_frombuffer_all data_size (recv_until_eof buffer rest)
    else
      match recv_until_enough (ndata * data_size) buffer rest with
      | none => .hang
      | some buf =>
        if ndata < 0 then np_frombuffer_all data_size buf
        else if buf.length < ndata.toNat * data_size then .valueError
        else .ok (decodeCount data_size ndata.toNat buf)
  else .valueError

/-- The countdown loop of `RawClient.read`: receive while
`bytestogo > 0`, stopping at a zero-length receive.  Each model
fragment is delivered whole by `recv(bytestogo)`, which is faithful
whenever every fragment is at most the outstanding byte count (true for
any stream shorter than the `0x80000000`-element sentinel used for
"read to the end"). -/
def RawClient.read_loop (bytestogo : Int) (total : List Nat) :
    List (List Nat) → List Nat
  | [] => total
  | c :: cs =>
    if bytestogo ≤ 0 then total
    else if c = [] then total
    else RawClient.read_loop (bytestogo - c.length) (total ++ c) cs

/-- `RawClient.read(nelems, data_size, ncols)` (`acq400.py` lines
132-156).  `nelems <= 0` is replaced by the 2 GiB sentinel; the dtype is
`i4` for `data_size == 4` and `i2` for everything else; the whole
accumulated buffer is decoded with `count=-1`. -/
def RawClient.read (nelems : Int) (data_size ncols : Nat)
    (chunks : List (List Nat)) : ReadResult :=
  let w := if data_size = 4 then 4 else 2
  let n : Int := if nelems ≤ 0 then 0x80000000 else nelems
  np_frombuffer_all w (RawClient.read_loop (n * data_size * ncols) [] chunks)

theorem headD_append_tail_join (chunks : List (List Nat)) :
    chunks.headD [] ++ chunks.tail.join = chunks.join := by
  cases chunks <;> simp

theorem recv_until_eof_all :
    ∀ (cs : List (List Nat)) (total : List Nat), (∀ c ∈ cs, c ≠ []) →
      recv_until_eof total cs = total ++ cs.join := by
  intro cs
  induction cs with
  | nil => intro total _; simp [recv_until_eof]
  | cons c cs ih =>
    intro total h
    have hc : c ≠ [] := h c (List.mem_cons_self c cs)
    rw [recv_until_eof, if_neg hc, ih (total ++ c) (fun d hd => h d (List.mem_cons_of_mem c hd))]
    simp

theorem recv_until_enough_exact :
    ∀ (cs : List (List Nat)) (buffer E : List Nat) (need : Int),
      buffer ++ cs.join = E → (E.length : Int) = need →
      recv_until_enough need buffer cs = some E := by
  intro cs
  induction cs with
  | nil =>
    intro buffer E need hE hlen
    have e : buffer ++ ([] : List (List Nat)).join = buffer := by simp
    rw [e] at hE
    subst hE
    rw [recv_until_enough, if_neg (by omega)]
  | cons c cs ih =>
    intro buffer E need hE hlen
    rw [recv_until_enough]
    by_cases hb : (buffer.length : Int) < need
    · rw [if_pos hb]
      exact ih (buffer ++ c) E need (by rw [← hE]; simp [List.join]) hlen
    · rw [if_neg hb]
      have hle : buffer.length ≤ E.length := by
        rw [← hE]; simp
      have hjoin : (c :: cs).join = c ++ cs.join := by simp
      have hlenE : buffer.length + (c ++ cs.join).length = E.length := by
        rw [← hE, hjoin]
        simp
      have hrest : (c ++ cs.join).length = 0 := by omega
      have hnil : c ++ cs.join = [] := List.eq_nil_of_length_eq_zero hrest
      have hbe : buffer = E := by
        rw [← hE, hjoin, hnil, List.append_nil]
      rw [hbe]

theorem recv_until_enough_some :
    ∀ (cs : List (List Nat)) (buffer : List Nat) (need : Int),
      need ≤ ((buffer ++ cs.join).length : Int) →
      ∃ buf, recv_until_enough need buffer cs = some buf ∧ need ≤ (buf.length : Int) := by
  intro cs
  induction cs with
  | nil =>
    intro buffer need h
    have e : buffer ++ ([] : List (List Nat)).join = buffer := by simp
    rw [e] at h
    refine ⟨buffer, ?_, h⟩
    rw [recv_until_enough, if_neg (by omega)]
  | cons c cs ih =>
    intro buffer need h
    rw [recv_until_enough]
    by_cases hb : (buffer.length : Int) < need
    · rw [if_pos hb]
      refine ih (buffer ++ c) need ?_
      have e : buffer ++ c ++ cs.join = buffer ++ (c :: cs).join := by simp
      rw [e]
      exact h
    · rw [if_neg hb]
      exact ⟨buffer, rfl, by omega⟩

theorem recv_until_enough_none :
    ∀ (cs : List (List Nat)) (buffer : List Nat) (need : Int),
      ((buffer ++ cs.join).length : Int) < need →
      recv_until_enough need buffer cs = none := by
  intro cs
  induction cs with
  | nil =>
    intro buffer need h
    have e : buffer ++ ([] : List (List Nat)).join = buffer := by simp
    rw [e] at h
    rw [recv_until_enough, if_pos h]
  | cons c cs ih =>
    intro buffer need h
    have hmono : buffer.length ≤ (buffer ++ (c :: cs).join).length := by simp
    have hlt : (buffer.length : Int) < need := by omega
    rw [recv_until_enough, if_pos hlt]
    refine ih (buffer ++ c) need ?_
    have e : buffer ++ c ++ cs.join = buffer ++ (c :: cs).join := by simp
    rw [e]
    exact h

theorem raw_read_loop_all :
    ∀ (cs : List (List Nat)) (total : List Nat) (bytestogo : Int),
      (∀ c ∈ cs, c ≠ []) → ((cs.join.length : Int) < bytestogo) →
      RawClient.read_loop bytestogo total cs = total ++ cs.join := by
  intro cs
  induction cs with
  | nil => intro total btg _ _; simp [RawClient.read_loop]
  | cons c cs ih =>
    intro total btg h hlt
    have hc : c ≠ [] := h c (List.mem_cons_self c cs)
    have hclen : 0 < c.length := List.length_pos.mpr hc
    have hjoin : (c :: cs).join.length = c.length + cs.join.length := by simp
    rw [RawClient.read_loop, if_neg (by rw [hjoin] at hlt; push_cast at hlt ⊢; omega),
      if_neg hc, ih (total ++ c) (btg - c.length)
        (fun d hd => h d (List.mem_cons_of_mem c hd))
        (by rw [hjoin] at hlt; push_cast at hlt ⊢; omega)]
    simp

/-- Core reassembly fact: however the encoded byte stream of `xs` is
fragmented into non-empty `recv` results, the fixed-count read returns
exactly `xs`. -/
theorem channel_read_encoded (w : Nat) (hw : w = 1 ∨ w = 2 ∨ w = 4)
    (xs : List Int)
    (hrange : ∀ x ∈ xs, -(2 ^ (8 * w - 1)) ≤ x ∧ x < 2 ^ (8 * w - 1))
    (chunks : List (List Nat)) (hne : ∀ c ∈ chunks, c ≠ [])
    (hjoin : chunks.join = encodeList w xs) :
    ChannelClient.read (xs.length : Int) w chunks = .ok xs := by
  have hw1 : 1 ≤ w := by rcases hw with h | h | h <;> omega
  by_cases hnil : xs = []
  · subst hnil
    have hchunks : chunks = [] := by
      cases chunks with
      | nil => rfl
      | cons c cs =>
        exfalso
        apply hne c (List.mem_cons_self c cs)
        have hc := congrArg List.length hjoin
        simp [encodeList] at hc
        exact hc.1
    subst hchunks
    rcases hw with h | h | h <;> subst h <;> decide
  · have hlen1 : 1 ≤ xs.length := List.length_pos.mpr hnil
    rw [ChannelClient.read, if_pos hw]
    have hcond : ¬ (((xs.length : Nat) : Int) = 0 ∨ ((xs.length : Nat) : Int) = -1) := by
      rintro (h | h) <;> omega
    rw [if_neg hcond]
    have hElen : ((encodeList w xs).length : Int) = (xs.length : Int) * w := by
      rw [encodeList_length]
      push_cast
      ring
    have hexact : recv_until_enough ((xs.length : Int) * w) (chunks.headD []) chunks.tail
        = some (encodeList w xs) :=
      recv_until_enough_exact chunks.tail (chunks.headD []) (encodeList w xs)
        ((xs.length : Int) * w)
        (by rw [headD_append_tail_join, hjoin]) hElen
    split
    · next heq =>
      rw [hexact] at heq
      exact absurd heq (by simp)
    · next buf heq =>
      rw [hexact] at heq
      have hbuf : buf = encodeList w xs := by
        injection heq with h
        exact h.symm
      subst hbuf
      have hneg : ¬ ((xs.length : Int) < 0) := by omega
      rw [if_neg hneg]
      have htoNat : ((xs.length : Nat) : Int).toNat = xs.length := Int.toNat_natCast _
      have hsz : ¬ ((encodeList w xs).length < ((xs.length : Nat) : Int).toNat * w) := by
        rw [htoNat, encodeList_length]
        omega
      rw [if_neg hsz, htoNat]
      have hdec := decodeCount_encodeList w hw1 xs [] hrange
      rw [List.append_nil] at hdec
      rw [hdec]

/-- C2: for every sequence of signed integers encoded at element width
1, 2 or 4 bytes, and every fragmentation of the byte stream into
non-empty `recv` fragments (chunk sizes 1, 3, 7, a split exactly at
`count*width`, or anything else), `ChannelClient.read(count, width)`
returns exactly the original sequence. -/
theorem claim_C2 (xs : List Int) (w : Nat) (chunks : List (List Nat))
    (hw : w = 1 ∨ w = 2 ∨ w = 4)
    (hrange : ∀ x ∈ xs, -(2 ^ (8 * w - 1)) ≤ x ∧ x < 2 ^ (8 * w - 1))
    (hne : ∀ c ∈ chunks, c ≠ [])
    (hjoin : chunks.join = encodeList w xs) :
    ChannelClient.read (xs.length : Int) w chunks = .ok xs :=
  channel_read_encoded w hw xs hrange chunks hne hjoin

theorem claim_C2_witness :
    ChannelClient.read (([1, -1] : List Int).length : Int) 2 [[1], [0, 255], [255]]
      = .ok [1, -1] :=
  claim_C2 [1, -1] 2 [[1], [0, 255], [255]] (by decide) (by decide) (by decide) (by decide)

/-- C3 (counterexample): a fixed-count read whose connection closes
after one byte (stream `[[1]]`, i.e. a single 1-byte fragment and then
end of stream) never returns: the accumulation loop spins on zero-length
receives.  There is no ShortReadError anywhere in the code, so the read
does exactly what the claim rules out - it hangs. -/
theorem claim_C3_counterexample : ChannelClient.read 2 2 [[1]] = .hang := by decide

/-- C3 (amended): with `count > 0` and width 1/2/4, the client
accumulates until the buffer holds at least `count*width` bytes and then
returns exactly `count` decoded elements; but if the connection closes
first, the read never returns (the `recv` loop spins forever on empty
reads) - no error value is produced. -/
theorem claim_C3_amended (count : Int) (w : Nat) (chunks : List (List Nat))
    (hpos : 0 < count) (hw : w = 1 ∨ w = 2 ∨ w = 4) :
    ((count * w ≤ (chunks.join.length : Int)) →
      ∃ bs, ChannelClient.read count w chunks = .ok bs ∧ bs.length = count.toNat)
    ∧ (((chunks.join.length : Int) < count * w) →
      ChannelClient.read count w chunks = .hang) := by
  have hcond : ¬ (count = 0 ∨ count = -1) := by omega
  constructor
  · intro htotal
    rw [ChannelClient.read, if_pos hw, if_neg hcond]
    obtain ⟨buf, hbuf, hblen⟩ :=
      recv_until_enough_some chunks.tail (chunks.headD []) (count * w)
        (by rw [headD_append_tail_join]; exact htotal)
    split
    · next heq =>
      rw [hbuf] at heq
      exact absurd heq (by simp)
    · next buf' heq =>
      rw [hbuf] at heq
      have hbuf' : buf' = buf := by
        injection heq with h
        exact h.symm
      rw [hbuf']
      have hneg : ¬ (count < 0) := by omega
      rw [if_neg hneg]
      have hsz : ¬ (buf.length < count.toNat * w) := by
        intro hcon
        have h1 : ((count.toNat * w : Nat) : Int) = count * w := by
          push_cast
          rw [Int.toNat_of_nonneg (by omega)]
        have h2 : ((buf.length : Nat) : Int) < ((count.toNat * w : Nat) : Int) := by
          exact_mod_cast hcon
        rw [h1] at h2
        omega
      rw [if_neg hsz]
      exact ⟨decodeCount w count.toNat buf, rfl, decodeCount_length w count.toNat buf⟩
  · intro htotal
    rw [ChannelClient.read, if_pos hw, if_neg hcond]
    rw [recv_until_enough_none chunks.tail (chunks.headD []) (count * w)
      (by rw [headD_append_tail_join]; exact htotal)]

theorem claim_C3_amended_witness :
    ∃ bs, ChannelClient.read 1 2 [[5, 0]] = .ok bs ∧ bs.length = (1 : Int).toNat :=
  (claim_C3_amended 1 2 [[5, 0]] (by decide) (by decide)).1 (by decide)

/-- C6 (counterexample): `ChannelClient.read` special-cases only
`ndata == 0` and `ndata == -1`.  With `count = -2` and the two-fragment
stream `[[1],[2]]` it skips the accumulation loop entirely and decodes
only the first `recv` result, returning `[1]` instead of the entire
delivered stream `[1, 2]`. -/
theorem claim_C6_counterexample :
    ChannelClient.read (-2) 1 [[1], [2]] = .ok [1]
    ∧ ChannelClient.read (-2) 1 [[1], [2]] ≠ .ok [1, 2] := by decide

/-- C6 (amended): for `count ∈ {0, -1}` (not for every `count ≤ 0`),
`ChannelClient.read` accumulates fragments until the zero-length receive
and decodes the entire delivered byte stream, the result length
reflecting the total bytes received before close; `RawClient.read` does
behave that way for every `nelems ≤ 0` (any stream shorter than its
2 GiB sentinel). -/
theorem claim_C6_amended :
    (∀ (count : Int) (w : Nat) (chunks : List (List Nat)),
      (count = 0 ∨ count = -1) → (w = 1 ∨ w = 2 ∨ w = 4) →
      (∀ c ∈ chunks, c ≠ []) → w ∣ chunks.join.length →
      ChannelClient.read count w chunks
        = .ok (decodeCount w (chunks.join.length / w) chunks.join)
      ∧ (decodeCount w (chunks.join.length / w) chunks.join).length
        = chunks.join.length / w)
    ∧ (∀ (nelems : Int) (data_size ncols : Nat) (chunks : List (List Nat)),
      nelems ≤ 0 → (∀ c ∈ chunks, c ≠ []) →
      ((chunks.join.length : Int) < 0x80000000 * data_size * ncols) →
      (if data_size = 4 then 4 else 2) ∣ chunks.join.length →
      RawClient.read nelems data_size ncols chunks
        = .ok (decodeCount (if data_size = 4 then 4 else 2)
            (chunks.join.length / (if data_size = 4 then 4 else 2)) chunks.join)) := by
  constructor
  · intro count w chunks hcount hw hne hdvd
    have hwne : w ≠ 0 := by rcases hw with h | h | h <;> omega
    rw [ChannelClient.read, if_pos hw, if_pos hcount]
    have heof : recv_until_eof (chunks.headD []) chunks.tail = chunks.join := by
      cases chunks with
      | nil => rfl
      | cons c cs =>
        have h := recv_until_eof_all cs c (fun d hd => hne d (List.mem_cons_of_mem c hd))
        simpa using h
    rw [heof, np_frombuffer_all, if_pos ⟨hwne, hdvd⟩]
    exact ⟨rfl, decodeCount_length _ _ _⟩
  · intro nelems data_size ncols chunks hle hne hlt hdvd
    have hwne : (if data_size = 4 then 4 else 2) ≠ 0 := by
      by_cases h : data_size = 4 <;> simp [h]
    rw [RawClient.read]
    simp only [if_pos hle]
    rw [raw_read_loop_all chunks [] _ hne hlt]
    rw [List.nil_append, np_frombuffer_all, if_pos ⟨hwne, hdvd⟩]

theorem claim_C6_amended_witness :
    (ChannelClient.read 0 1 [[7]]
        = .ok (decodeCount 1 (([[7]] : List (List Nat)).join.length / 1) [[7]].join)
      ∧ (decodeCount 1 (([[7]] : List (List Nat)).join.length / 1) [[7]].join).length
        = ([[7]] : List (List Nat)).join.length / 1)
    ∧ RawClient.read (-1) 2 1 [[3, 0]]
        = .ok (decodeCount (if (2 : Nat) = 4 then 4 else 2)
            (([[3, 0]] : List (List Nat)).join.length / (if (2 : Nat) = 4 then 4 else 2))
            [[3, 0]].join) :=
  ⟨claim_C6_amended.1 0 1 [[7]] (by decide) (by decide) (by decide) (by decide),
   claim_C6_amended.2 (-1) 2 1 [[3, 0]] (by decide) (by decide) (by decide) (by decide)⟩

/-!
## Statusmonitor (`acq400.py` lines 230-311)

A status line either matches the regex
`([0-9]) ([0-9]+) ([0-9]+) ([0-9]+) ([0-9])+` - yielding five numeric
groups - or is discarded, so a polled line is modelled as
`Option Status`.  The monitor thread's mutable fields
(`status`, `armed`, `stopped`, `quit_requested`) form `MonState`.
`os.kill(main_pid, SIGINT)` / `sys.exit(1)` on the fatal path terminate
the monitor loop; a waiter blocked in `wait_event` observes
`quit_requested` within one 100 ms poll and exits, which the model
reports as `WaitRes.aborted`.
-/

/-- One successfully parsed status line: the five regex groups
(`SF.STATE` is field 0). -/
structure Status where
  state : Nat
  pre : Nat
  post : Nat
  elapsed : Nat
  g4 : Nat
  deriving DecidableEq

/-- Mutable state of a `Statusmonitor` instance. -/
structure MonState where
  status : Option Status
  armed : Bool
  stopped : Bool
  quit : Bool
  deriving DecidableEq

/-- Outcome of one iteration of the `st_monitor` loop body:
`cont` keeps polling, `fatal` is the skipped-ARM path
(`quit_requested = True; os.kill(...); sys.exit(1)`). -/
inductive StepRes where
  | cont (m : MonState)
  | fatal (m : MonState)
  deriving DecidableEq

/-- One iteration of `Statusmonitor.st_monitor` on one polled line.
Non-matching lines are discarded; on a parsed line the three
conditionals run in source order against the previous snapshot, and
`self.status` is replaced at the end - except on the fatal path, where
`sys.exit(1)` fires first. -/
def Statusmonitor.st_monitor_step (m : MonState) (line : Option Status) : StepRes :=
  match line with
  | none => .cont m
  | some s1 =>
    match m.status with
    | none => .cont { m with status := some s1 }
    | some st =>
      let m1 := if st.state ≠ 0 ∧ s1.state = 0
                then { m with stopped := true, armed := false } else m
      let m2 := if s1.state = 1
                then { m1 with armed := true, stopped := false } else m1
      if st.state = 0 ∧ s1.state > 1 then .fatal { m2 with quit := true }
      else .cont { m2 with status := some s1 }

/-- The `while self.quit_requested == False` polling loop, run over a
list of polled lines.  Returns the final state together with the lines
never polled (the fatal path stops polling, leaving them unconsumed). -/
def Statusmonitor.st_monitor : MonState → List (Option Status) → MonState × List (Option Status)
  | m, [] => (m, [])
  | m, l :: ls =>
    if m.quit then (m, l :: ls)
    else
      match Statusmonitor.st_monitor_step m l with
      | .cont m' => Statusmonitor.st_monitor m' ls
      | .fatal m' => (m', ls)

/-- What a `wait_event` caller observes: a normal return (`ok`), the
`sys.exit(1)` when `quit_requested` is seen (`aborted`), or staying
blocked in the 100 ms poll loop (`blocked`). -/
inductive WaitRes where
  | ok
  | aborted
  | blocked
  deriving DecidableEq

/-- `Statusmonitor.wait_event` against a fixed event/quit state:
`ev.wait(0.1)` returns at once when the event is set (then the event is
cleared and the call returns); otherwise the loop checks
`quit_requested` and exits the thread; otherwise it keeps polling. -/
def Statusmonitor.wait_event (ev quit : Bool) : WaitRes :=
  if ev then .ok else if quit then .aborted else .blocked

/-- `wait_armed`: wait on the `armed` event, clearing it on return. -/
def Statusmonitor.wait_armed (m : MonState) : WaitRes × MonState :=
  match Statusmonitor.wait_event m.armed m.quit with
  | .ok => (.ok, { m with armed := false })
  | r => (r, m)

/-- `wait_stopped`: wait on the `stopped` event, clearing it on return. -/
def Statusmonitor.wait_stopped (m : MonState) : WaitRes × MonState :=
  match Statusmonitor.wait_event m.stopped m.quit with
  | .ok => (.ok, { m with stopped := false })
  | r => (r, m)

/-- `Statusmonitor.__init__`: events start clear, `quit_requested`
false, `self.status` holds the snapshot parsed synchronously from
`s0.state` by `Acq400.__init__`. -/
def Statusmonitor.init (st : Status) : MonState :=
  { status := some st, armed := false, stopped := false, quit := false }

/-- Anything that can touch the monitor state: the monitor thread
polling one line, or a client thread running one of the wait calls. -/
inductive MonAction where
  | poll (l : Option Status)
  | waitA
  | waitS
  deriving DecidableEq

/-- Effect of one action on the monitor state. -/
def Statusmonitor.applyAction (m : MonState) (a : MonAction) : MonState :=
  match a with
  | .poll l =>
    if m.quit then m
    else
      match Statusmonitor.st_monitor_step m l with
      | .cont m' => m'
      | .fatal m' => m'
  | .waitA => (Statusmonitor.wait_armed m).2
  | .waitS => (Statusmonitor.wait_stopped m).2

/-- Spec-side reading of "the armed event has been raised since it was
last cleared": scan the parsed lines, tracking the previous snapshot;
an ARMED line raises it, a stop edge (previous not IDLE, new IDLE)
clears it. -/
def armedRaisedSinceClear (prev : Option Status) (a : Bool) :
    List (Option Status) → Bool
  | [] => a
  | none :: ls => armedRaisedSinceClear prev a ls
  | some s :: ls =>
    match prev with
    | none => armedRaisedSinceClear (some s) a ls
    | some p =>
      let a1 := if p.state ≠ 0 ∧ s.state = 0 then false else a
      let a2 := if s.state = 1 then true else a1
      armedRaisedSinceClear (some s) a2 ls

/-- Spec-side reading of "the stopped event has been raised since it was
last cleared": a stop edge raises it, an ARMED line clears it. -/
def stoppedRaisedSinceClear (prev : Option Status) (b : Bool) :
    List (Option Status) → Bool
  | [] => b
  | none :: ls => stoppedRaisedSinceClear prev b ls
  | some s :: ls =>
    match prev with
    | none => stoppedRaisedSinceClear (some s) b ls
    | some p =>
      let b1 := if p.state ≠ 0 ∧ s.state = 0 then true else b
      let b2 := if s.state = 1 then false else b1
      stoppedRaisedSinceClear (some s) b2 ls

/-- Closed form of one monitor iteration on a parsed line when a
previous snapshot exists: either the fatal skipped-ARM branch (which
only sets `quit_requested`; `self.status` is not reached because
`sys.exit(1)` fires first), or the event updates in source order
followed by the snapshot replacement. -/
theorem st_monitor_step_some (m : MonState) (p s : Status) (hp : m.status = some p) :
    Statusmonitor.st_monitor_step m (some s) =
      (if p.state = 0 ∧ s.state > 1
       then .fatal { m with quit := true }
       else .cont { m with
         status := some s,
         armed := if s.state = 1 then true
                  else if p.state ≠ 0 ∧ s.state = 0 then false else m.armed,
         stopped := if s.state = 1 then false
                    else if p.state ≠ 0 ∧ s.state = 0 then true else m.stopped }) := by
  rw [Statusmonitor.st_monitor_step, hp]
  by_cases h1 : p.state ≠ 0 ∧ s.state = 0 <;>
    by_cases h2 : s.state = 1 <;>
      by_cases h3 : p.state = 0 ∧ s.state > 1 <;>
        first
        | (exfalso; omega)
        | simp [h1, h2, h3, hp]

/-- Refinement of the event flags: if the polling loop consumes a whole
line list, the `armed`/`stopped` events afterwards are exactly the
spec-side "raised since last cleared" predicates over that list. -/
theorem st_monitor_events :
    ∀ (ls : List (Option Status)) (m m' : MonState),
      Statusmonitor.st_monitor m ls = (m', []) →
      m'.armed = armedRaisedSinceClear m.status m.armed ls
      ∧ m'.stopped = stoppedRaisedSinceClear m.status m.stopped ls := by
  intro ls
  induction ls with
  | nil =>
    intro m m' h
    rw [Statusmonitor.st_monitor] at h
    have hm : m = m' := congrArg Prod.fst h
    subst hm
    exact ⟨rfl, rfl⟩
  | cons l ls ih =>
    intro m m' h
    rw [Statusmonitor.st_monitor] at h
    by_cases hq : m.quit
    · rw [if_pos hq] at h
      exact absurd (congrArg Prod.snd h) (by simp)
    · rw [if_neg hq] at h
      cases l with
      | none =>
        have hstep : Statusmonitor.st_monitor_step m none = .cont m := rfl
        rw [hstep] at h
        have hres := ih m m' h
        exact ⟨by rw [hres.1, armedRaisedSinceClear],
               by rw [hres.2, stoppedRaisedSinceClear]⟩
      | some s =>
        cases hms : m.status with
        | none =>
          have hstep : Statusmonitor.st_monitor_step m (some s)
              = .cont { m with status := some s } := by
            rw [Statusmonitor.st_monitor_step, hms]
          rw [hstep] at h
          have hres := ih _ m' h
          constructor
          · rw [hres.1]
            rfl
          · rw [hres.2]
            rfl
        | some p =>
          rw [st_monitor_step_some m p s hms] at h
          by_cases h3 : p.state = 0 ∧ s.state > 1
          · rw [if_pos h3] at h
            have hm' : { m with quit := true } = m' := congrArg Prod.fst h
            have hls : ls = [] := congrArg Prod.snd h
            subst hls
            rw [← hm']
            have hs1 : ¬ s.state = 1 := by omega
            have hc1 : ¬ (p.state ≠ 0 ∧ s.state = 0) := by omega
            constructor
            · simp [armedRaisedSinceClear, hs1, hc1]
            · simp [stoppedRaisedSinceClear, hs1, hc1]
          · rw [if_neg h3] at h
            have hres := ih _ m' h
            constructor
            · rw [hres.1]
              rfl
            · rw [hres.2]
              rfl

/-- If no polled line parses to an ARMED snapshot, the armed event can
never become raised. -/
theorem armedRaised_false_of_no_arm :
    ∀ (ls : List (Option Status)) (prev : Option Status),
      (∀ l ∈ ls, ∀ s : Status, l = some s → s.state ≠ 1) →
      armedRaisedSinceClear prev false ls = false := by
  intro ls
  induction ls with
  | nil => intro prev _; rfl
  | cons l ls ih =>
    intro prev h
    cases l with
    | none =>
      rw [armedRaisedSinceClear]
      exact ih prev (fun l0 hl0 => h l0 (List.mem_cons_of_mem _ hl0))
    | some s =>
      have hs : s.state ≠ 1 := h (some s) (List.mem_cons_self _ _) s rfl
      have htail := fun l0 hl0 => h l0 (List.mem_cons_of_mem _ hl0)
      cases prev with
      | none =>
        rw [armedRaisedSinceClear]
        exact ih (some s) htail
      | some p =>
        rw [armedRaisedSinceClear]
        simp only [if_neg hs]
        by_cases hc : p.state ≠ 0 ∧ s.state = 0
        · simp only [if_pos hc]
          exact ih (some s) htail
        · simp only [if_neg hc]
          exact ih (some s) htail

/-- C1: from an IDLE snapshot, a parsed line whose state is neither
IDLE (0) nor ARMED (1) makes the monitor take the fatal skipped-ARM
path exactly once: it marks itself terminated (`quit_requested`),
stops polling (the remaining lines are never consumed), and a thread
then blocked in `wait_armed`/`wait_stopped` fails (`sys.exit`) instead
of continuing to wait. -/
theorem claim_C1 (m : MonState) (st s1 : Status) (rest : List (Option Status))
    (hq : m.quit = false) (hst : m.status = some st) (hidle : st.state = 0)
    (h0 : s1.state ≠ 0) (h1 : s1.state ≠ 1) :
    Statusmonitor.st_monitor m (some s1 :: rest) = ({ m with quit := true }, rest)
    ∧ ({ m with quit := true } : MonState).quit = true
    ∧ (m.armed = false →
        (Statusmonitor.wait_armed { m with quit := true }).1 = .aborted)
    ∧ (m.stopped = false →
        (Statusmonitor.wait_stopped { m with quit := true }).1 = .aborted) := by
  have hfatal : st.state = 0 ∧ s1.state > 1 := ⟨hidle, by omega⟩
  refine ⟨?_, rfl, ?_, ?_⟩
  · rw [Statusmonitor.st_monitor, if_neg (by rw [hq]; simp),
      st_monitor_step_some m st s1 hst, if_pos hfatal]
  · intro ha
    rw [Statusmonitor.wait_armed, Statusmonitor.wait_event]
    simp [ha]
  · intro hs
    rw [Statusmonitor.wait_stopped, Statusmonitor.wait_event]
    simp [hs]

theorem claim_C1_witness :
    Statusmonitor.st_monitor (Statusmonitor.init ⟨0, 0, 0, 0, 0⟩)
        [some ⟨2, 0, 0, 0, 0⟩, some ⟨3, 0, 0, 0, 0⟩]
      = ({ Statusmonitor.init ⟨0, 0, 0, 0, 0⟩ with quit := true },
         [some ⟨3, 0, 0, 0, 0⟩])
    ∧ ({ Statusmonitor.init ⟨0, 0, 0, 0, 0⟩ with quit := true } : MonState).quit = true
    ∧ ((Statusmonitor.init ⟨0, 0, 0, 0, 0⟩).armed = false →
        (Statusmonitor.wait_armed
          { Statusmonitor.init ⟨0, 0, 0, 0, 0⟩ with quit := true }).1 = .aborted)
    ∧ ((Statusmonitor.init ⟨0, 0, 0, 0, 0⟩).stopped = false →
        (Statusmonitor.wait_stopped
          { Statusmonitor.init ⟨0, 0, 0, 0, 0⟩ with quit := true }).1 = .aborted) :=
  claim_C1 (Statusmonitor.init ⟨0, 0, 0, 0, 0⟩) ⟨0, 0, 0, 0, 0⟩ ⟨2, 0, 0, 0, 0⟩
    [some ⟨3, 0, 0, 0, 0⟩] rfl rfl rfl (by decide) (by decide)

/-- C4: when the monitor consumes a whole line list, `wait_armed`
returns normally exactly when an ARMED snapshot has been raised since
the armed event was last cleared, and `wait_stopped` exactly when an
IDLE-after-non-IDLE edge has been raised since the stopped event was
last cleared; in particular, after a `wait_armed` return (event
cleared), if no polled line is an ARMED snapshot the next `wait_armed`
stays blocked. -/
theorem claim_C4 (m m' : MonState) (ls : List (Option Status))
    (hrun : Statusmonitor.st_monitor m ls = (m', [])) :
    ((Statusmonitor.wait_armed m').1 = .ok
      ↔ armedRaisedSinceClear m.status m.armed ls = true)
    ∧ ((Statusmonitor.wait_stopped m').1 = .ok
      ↔ stoppedRaisedSinceClear m.status m.stopped ls = true)
    ∧ (m.armed = false →
        (∀ l ∈ ls, ∀ s : Status, l = some s → s.state ≠ 1) →
        m'.quit = false →
        (Statusmonitor.wait_armed m').1 = .blocked) := by
  obtain ⟨ha, hs⟩ := st_monitor_events ls m m' hrun
  refine ⟨?_, ?_, ?_⟩
  · rw [← ha, Statusmonitor.wait_armed, Statusmonitor.wait_event]
    cases harm : m'.armed with
    | true => simp
    | false =>
      cases hqv : m'.quit <;> simp
  · rw [← hs, Statusmonitor.wait_stopped, Statusmonitor.wait_event]
    cases hst : m'.stopped with
    | true => simp
    | false =>
      cases hqv : m'.quit <;> simp
  · intro harm hnoarm hq
    have hfalse : m'.armed = false := by
      rw [ha, harm]
      exact armedRaised_false_of_no_arm ls m.status hnoarm
    rw [Statusmonitor.wait_armed, Statusmonitor.wait_event, hfalse, hq]
    rfl

theorem claim_C4_witness :
    ((Statusmonitor.wait_armed
        (Statusmonitor.st_monitor (Statusmonitor.init ⟨0, 0, 0, 0, 0⟩)
          [some ⟨1, 0, 0, 0, 0⟩]).1).1 = .ok
      ↔ armedRaisedSinceClear (Statusmonitor.init ⟨0, 0, 0, 0, 0⟩).status
          (Statusmonitor.init ⟨0, 0, 0, 0, 0⟩).armed [some ⟨1, 0, 0, 0, 0⟩] = true)
    ∧ ((Statusmonitor.wait_stopped
        (Statusmonitor.st_monitor (Statusmonitor.init ⟨0, 0, 0, 0, 0⟩)
          [some ⟨1, 0, 0, 0, 0⟩]).1).1 = .ok
      ↔ stoppedRaisedSinceClear (Statusmonitor.init ⟨0, 0, 0, 0, 0⟩).status
          (Statusmonitor.init ⟨0, 0, 0, 0, 0⟩).stopped [some ⟨1, 0, 0, 0, 0⟩] = true)
    ∧ ((Statusmonitor.init ⟨0, 0, 0, 0, 0⟩).armed = false →
        (∀ l ∈ [some (⟨1, 0, 0, 0, 0⟩ : Status)], ∀ s : Status, l = some s → s.state ≠ 1) →
        (Statusmonitor.st_monitor (Statusmonitor.init ⟨0, 0, 0, 0, 0⟩)
          [some ⟨1, 0, 0, 0, 0⟩]).1.quit = false →
        (Statusmonitor.wait_armed
          (Statusmonitor.st_monitor (Statusmonitor.init ⟨0, 0, 0, 0, 0⟩)
            [some ⟨1, 0, 0, 0, 0⟩]).1).1 = .blocked) :=
  claim_C4 (Statusmonitor.init ⟨0, 0, 0, 0, 0⟩) _ [some ⟨1, 0, 0, 0, 0⟩] rfl

/-- Each action (a poll of one line or a wait call) preserves mutual
exclusion of the two events. -/
theorem applyAction_events_exclusive (m : MonState) (a : MonAction)
    (h : ¬ (m.armed = true ∧ m.stopped = true)) :
    ¬ ((Statusmonitor.applyAction m a).armed = true
       ∧ (Statusmonitor.applyAction m a).stopped = true) := by
  cases a with
  | poll l =>
    rw [Statusmonitor.applyAction]
    by_cases hq : m.quit
    · simpa [hq] using h
    · rw [if_neg hq]
      cases l with
      | none => simpa [Statusmonitor.st_monitor_step] using h
      | some s =>
        cases hms : m.status with
        | none =>
          rw [Statusmonitor.st_monitor_step, hms]
          simpa using h
        | some p =>
          rw [st_monitor_step_some m p s hms]
          by_cases h3 : p.state = 0 ∧ s.state > 1
          · rw [if_pos h3]
            simpa using h
          · rw [if_neg h3]
            by_cases h2 : s.state = 1
            · simp [h2]
            · by_cases h1 : p.state ≠ 0 ∧ s.state = 0
              · simp [h1, h2]
              · simpa [h1, h2] using h
  | waitA =>
    rw [Statusmonitor.applyAction, Statusmonitor.wait_armed, Statusmonitor.wait_event]
    cases harm : m.armed with
    | true => simp
    | false =>
      cases hqv : m.quit <;> simpa using h
  | waitS =>
    rw [Statusmonitor.applyAction, Statusmonitor.wait_stopped, Statusmonitor.wait_event]
    cases hst : m.stopped with
    | true => simp
    | false =>
      cases hqv : m.quit <;> simpa using h

/-- C10: from the freshly constructed monitor (both events clear), no
interleaving of line polls and wait calls ever reaches a state with the
`armed` and `stopped` events both set. -/
theorem claim_C10 (st0 : Status) (acts : List MonAction) :
    ¬ ((acts.foldl Statusmonitor.applyAction (Statusmonitor.init st0)).armed = true
       ∧ (acts.foldl Statusmonitor.applyAction (Statusmonitor.init st0)).stopped = true) := by
  have hgen : ∀ (acts : List MonAction) (m : MonState),
      ¬ (m.armed = true ∧ m.stopped = true) →
      ¬ ((acts.foldl Statusmonitor.applyAction m).armed = true
         ∧ (acts.foldl Statusmonitor.applyAction m).stopped = true) := by
    intro acts
    induction acts with
    | nil => intro m h; simpa using h
    | cons a acts ih =>
      intro m h
      rw [List.foldl_cons]
      exact ih _ (applyAction_events_exclusive m a h)
  exact hgen acts _ (by simp [Statusmonitor.init])

/-!
## Acq400 read orchestration (`acq400.py` lines 496-575)

`net ch` is the fragment stream delivered on data port `DATA0 + ch`
(`ch = 0` is the combined/aggregate port).  The optional `save_data`
file dump is not modelled (off by default, no effect on the returned
arrays).
-/

/-- The knobs of a device that `read_chan`/`read_channels` consult:
`s0.data32`, the first digit after `DEMUX=` in `s0.transient`,
`int(s0.NCHAN)`, and the monitor's pre/post sample counts. -/
structure Dev where
  data32 : Bool
  demuxDigit : Nat
  nchanKnob : Nat
  pre : Nat
  post : Nat

/-- Result of `read_channels`: the list of per-channel arrays, a
propagated failure of an underlying channel read, or the `ValueError`
from `reshape((-1, nchan))` on a stream the stride does not divide. -/
inductive ChansResult where
  | ok (chx : List (List Int))
  | readFail
  | reshapeError
  deriving DecidableEq

/-- `Acq400.read_chan(chan, nsam, data_size)`: a zero `nsam` for a real
channel defaults to `pre+post`; then one `ChannelClient.read` on that
channel's port. -/
def Acq400.read_chan (dev : Dev) (net : Nat → List (List Nat))
    (chan : Nat) (nsam : Int) (data_size : Nat) : ReadResult :=
  let nsam1 := if chan ≠ 0 ∧ nsam = 0 then ((dev.pre + dev.post : Nat) : Int) else nsam
  ChannelClient.read nsam1 data_size (net chan)

/-- Sequentially collect per-channel results; the first failing read
aborts the whole call. -/
def collectOks : List ReadResult → Option (List (List Int))
  | [] => some []
  | .ok d :: rs => (collectOks rs).map (d :: ·)
  | .hang :: _ => none
  | .valueError :: _ => none

/-- Column `ch` (1-based) of `data.reshape((-1, nchan))`, as produced by
`data[:, np.array(channels)-1].transpose()`. -/
def deinterleave (data : List Int) (nchan ch : Nat) : List Int :=
  (List.range (data.length / nchan)).map (fun i => data.getD (i * nchan + (ch - 1)) 0)

/-- `Acq400.read_channels(channels, nsam)`: default channel list is
`1..NCHAN`; the demux flag is re-read from `s0.transient`; with demux on
each requested channel gets its own per-channel fixed-count read, with
demux off one combined read of port `DATA0+0` is reshaped by stride
`nchan` and the requested columns are returned in request order. -/
def Acq400.read_channels (dev : Dev) (net : Nat → List (List Nat))
    (channels : List Nat) (nsam : Int) : ChansResult :=
  let chans := if channels = [] then (List.range dev.nchanKnob).map (· + 1) else channels
  let data_size := if dev.data32 then 4 else 2
  if dev.demuxDigit ≠ 0 then
    match collectOks (chans.map fun ch => Acq400.read_chan dev net ch nsam data_size) with
    | some chx => .ok chx
    | none => .readFail
  else
    match Acq400.read_chan dev net 0 nsam data_size with
    | .ok data =>
      if dev.nchanKnob ≠ 0 ∧ dev.nchanKnob ∣ data.length then
        .ok (chans.map fun ch => deinterleave data dev.nchanKnob ch)
      else .reshapeError
    | _ => .readFail

/-- The channel-interleaved aggregate stream: sample 0 of every channel,
then sample 1 of every channel, and so on. -/
def interleave (msamp : Nat) (yss : List (List Int)) : List Int :=
  ((List.range msamp).map (fun i => yss.map (fun ys => ys.getD i 0))).join

theorem join_const_length_getD :
    ∀ (bs : List (List Int)) (k : Nat), (∀ b ∈ bs, b.length = k) →
      ∀ i c, i < bs.length → c < k →
        bs.join.getD (i * k + c) 0 = (bs.getD i []).getD c 0 := by
  intro bs
  induction bs with
  | nil => intro k _ i c hi _; exact absurd hi (by simp)
  | cons b bs ih =>
    intro k hk i c hi hc
    have hb : b.length = k := hk b (List.mem_cons_self b bs)
    cases i with
    | zero =>
      have hpos : 0 * k + c < b.length := by omega
      rw [show (b :: bs).join = b ++ bs.join by simp]
      rw [List.getD_append b bs.join 0 (0 * k + c) hpos]
      simp
    | succ i =>
      have hskip : b.length ≤ (i + 1) * k + c := by
        rw [hb]
        nlinarith
      rw [show (b :: bs).join = b ++ bs.join by simp]
      rw [List.getD_append_right b bs.join 0 ((i + 1) * k + c) hskip]
      have hidx : (i + 1) * k + c - b.length = i * k + c := by
        rw [hb]
        ring_nf
        omega
      rw [hidx]
      have := ih k (fun d hd => hk d (List.mem_cons_of_mem b hd)) i c (by simpa using hi) hc
      rw [this]
      rfl

theorem getD_map_range {α : Type} (f : Nat → α) (d : α) (m i : Nat) (hi : i < m) :
    (((List.range m).map f).getD i d) = f i := by
  have h1 : ((List.range m).map f).get? i = some (f i) := by
    rw [List.get?_map, List.get?_range hi]
    rfl
  rw [List.getD_eq_getD_get?, h1]
  rfl

theorem interleave_length (msamp : Nat) (yss : List (List Int)) :
    (interleave msamp yss).length = msamp * yss.length := by
  induction msamp with
  | zero => simp [interleave]
  | succ m ih =>
    rw [interleave] at ih ⊢
    rw [List.range_succ, List.map_append]
    have hsplit : ((List.range m).map (fun i => yss.map (fun ys => ys.getD i 0))
        ++ [m].map (fun i => yss.map (fun ys => ys.getD i 0))).join
        = ((List.range m).map (fun i => yss.map (fun ys => ys.getD i 0))).join
          ++ ([m].map (fun i => yss.map (fun ys => ys.getD i 0))).join := by
      simp
    rw [hsplit, List.length_append, ih]
    simp
    ring

theorem interleave_getD (msamp : Nat) (yss : List (List Int)) (i c : Nat)
    (hi : i < msamp) (hc : c < yss.length) :
    (interleave msamp yss).getD (i * yss.length + c) 0
      = (yss.getD c []).getD i 0 := by
  rw [interleave]
  have hconst : ∀ b ∈ (List.range msamp).map (fun i => yss.map (fun ys => ys.getD i 0)),
      b.length = yss.length := by
    intro b hb
    obtain ⟨j, _, rfl⟩ := List.mem_map.mp hb
    simp
  rw [join_const_length_getD _ yss.length hconst i c (by simpa using hi) hc]
  rw [getD_map_range _ _ msamp i hi]
  have h1 : (yss.map (fun ys => ys.getD i 0)).get? c = some ((yss.getD c []).getD i 0) := by
    rw [List.get?_map]
    have h2 : yss.get? c = some (yss.get ⟨c, hc⟩) := List.get?_eq_get hc
    rw [h2]
    have h3 : yss.getD c [] = yss.get ⟨c, hc⟩ := by
      rw [List.getD_eq_get]
    rw [h3]
    rfl
  rw [List.getD_eq_getD_get?, h1]
  rfl

/-- De-interleaving by stride `nchan` recovers channel `ch` (1-based)
from the interleaved aggregate stream. -/
theorem deinterleave_interleave (msamp : Nat) (yss : List (List Int)) (ch : Nat)
    (hpos : 0 < yss.length) (hlen : ∀ ys ∈ yss, ys.length = msamp)
    (hch1 : 1 ≤ ch) (hch2 : ch ≤ yss.length) :
    deinterleave (interleave msamp yss) yss.length ch = yss.getD (ch - 1) [] := by
  have hchlt : ch - 1 < yss.length := by omega
  have hcol : yss.getD (ch - 1) [] = yss.get ⟨ch - 1, hchlt⟩ := List.getD_eq_get _ _ _
  have hcollen : (yss.getD (ch - 1) []).length = msamp := by
    rw [hcol]
    exact hlen _ (yss.get_mem _ _)
  have hdatalen : (interleave msamp yss).length = msamp * yss.length :=
    interleave_length msamp yss
  have hrows : (interleave msamp yss).length / yss.length = msamp := by
    rw [hdatalen, Nat.mul_div_cancel _ hpos]
  rw [deinterleave, hrows]
  apply List.ext_get
  · rw [List.length_map, List.length_range, hcollen]
  · intro i h1 h2
    rw [List.get_eq_getElem, List.get_eq_getElem, List.getElem_map, List.getElem_range]
    have hi : i < msamp := by simpa using h1
    have hgetD := interleave_getD msamp yss i (ch - 1) hi hchlt
    rw [hgetD]
    rw [List.getD_eq_getElem _ _ (by omega)]

theorem collectOks_map_ok (cs : List Nat) (f : Nat → ReadResult) (g : Nat → List Int)
    (h : ∀ ch ∈ cs, f ch = .ok (g ch)) :
    collectOks (cs.map f) = some (cs.map g) := by
  induction cs with
  | nil => rfl
  | cons c cs ih =>
    rw [List.map_cons, List.map_cons, h c (List.mem_cons_self c cs), collectOks,
      ih (fun d hd => h d (List.mem_cons_of_mem c hd))]
    rfl

/-- C5: `read_channels` branches on the demux flag read from
`s0.transient`.  Demux on: one independent per-channel fixed-count read
per requested channel - for channels `[1, 2]`, width 2, 100 samples
each, the two length-100 sequences decoded little-endian 16-bit signed
from the two per-channel ports.  Demux off: one combined read of the
aggregate port, de-interleaved client-side by stride `nchan`, returning
the requested channels' sequences in request order. -/
theorem claim_C5 :
    (∀ (dev : Dev) (net : Nat → List (List Nat)) (xs1 xs2 : List Int),
      dev.demuxDigit ≠ 0 → dev.data32 = false →
      xs1.length = 100 → xs2.length = 100 →
      (∀ x ∈ xs1, -(2 ^ (8 * 2 - 1)) ≤ x ∧ x < 2 ^ (8 * 2 - 1)) →
      (∀ x ∈ xs2, -(2 ^ (8 * 2 - 1)) ≤ x ∧ x < 2 ^ (8 * 2 - 1)) →
      (∀ c ∈ net 1, c ≠ []) → (∀ c ∈ net 2, c ≠ []) →
      (net 1).join = encodeList 2 xs1 → (net 2).join = encodeList 2 xs2 →
      Acq400.read_channels dev net [1, 2] 100 = .ok [xs1, xs2])
    ∧ (∀ (dev : Dev) (net : Nat → List (List Nat)) (cs : List Nat)
        (yss : List (List Int)) (msamp : Nat) (nsam : Int),
      dev.demuxDigit = 0 → dev.nchanKnob = yss.length → 0 < yss.length →
      (∀ ys ∈ yss, ys.length = msamp) →
      (∀ ch ∈ cs, 1 ≤ ch ∧ ch ≤ yss.length) → cs ≠ [] →
      Acq400.read_chan dev net 0 nsam (if dev.data32 then 4 else 2)
        = .ok (interleave msamp yss) →
      Acq400.read_channels dev net cs nsam
        = .ok (cs.map (fun ch => yss.getD (ch - 1) []))) := by
  constructor
  · intro dev net xs1 xs2 hdk hd32 h1len h2len hr1 hr2 hne1 hne2 hj1 hj2
    have hcast : ((100 : Nat) : Int) = (100 : Int) := by norm_num
    have e1 : Acq400.read_chan dev net 1 100 2 = .ok xs1 := by
      rw [Acq400.read_chan]
      have h := channel_read_encoded 2 (by norm_num) xs1 hr1 (net 1) hne1 hj1
      rw [h1len, hcast] at h
      simpa using h
    have e2 : Acq400.read_chan dev net 2 100 2 = .ok xs2 := by
      rw [Acq400.read_chan]
      have h := channel_read_encoded 2 (by norm_num) xs2 hr2 (net 2) hne2 hj2
      rw [h2len, hcast] at h
      simpa using h
    rw [Acq400.read_channels]
    simp only [hd32, if_neg (show ¬([1, 2] : List Nat) = [] by decide), if_pos hdk,
      Bool.false_eq_true, if_false]
    rw [List.map_cons, List.map_cons, List.map_nil, e1, e2]
    rfl
  · intro dev net cs yss msamp nsam hd0 hnchan hpos hlens hcsrange hcsne hread
    rw [Acq400.read_channels]
    simp only [if_neg hcsne, hd0]
    rw [if_neg (show ¬ (0 : Nat) ≠ 0 by omega)]
    split
    · next data heq =>
      rw [hread] at heq
      have hdata : data = interleave msamp yss := by
        injection heq with h
        exact h.symm
      subst hdata
      have hdvd : dev.nchanKnob ∣ (interleave msamp yss).length := by
        rw [hnchan, interleave_length]
        exact Dvd.intro msamp (by ring)
      have hne0 : dev.nchanKnob ≠ 0 := by rw [hnchan]; omega
      rw [if_pos ⟨hne0, hdvd⟩]
      congr 1
      apply List.map_congr_left
      intro ch hch
      rw [hnchan]
      exact deinterleave_interleave msamp yss ch hpos hlens
        (hcsrange ch hch).1 (hcsrange ch hch).2
    · next heq1 heq2 =>
      exact absurd hread (heq2 (interleave msamp yss))

/-- Demuxed two-channel device used as a concrete witness input. -/
def devC5d : Dev := { data32 := false, demuxDigit := 1, nchanKnob := 2, pre := 0, post := 0 }

def xsC5a : List Int := List.replicate 100 1

def xsC5b : List Int := List.replicate 100 (-2)

/-- Per-channel data ports, each delivering its channel's encoded
stream in one fragment. -/
def netC5d : Nat → List (List Nat) := fun ch =>
  if ch = 1 then [encodeList 2 xsC5a] else [encodeList 2 xsC5b]

/-- Multiplexed two-channel device used as a concrete witness input. -/
def devC5m : Dev := { data32 := false, demuxDigit := 0, nchanKnob := 2, pre := 0, post := 0 }

def yssC5 : List (List Int) := [[1, 2], [3, 4]]

/-- Aggregate port delivering the interleaved stream in one fragment. -/
def netC5m : Nat → List (List Nat) := fun _ => [encodeList 2 (interleave 2 yssC5)]

set_option maxRecDepth 4000 in
theorem claim_C5_witness :
    Acq400.read_channels devC5d netC5d [1, 2] 100 = .ok [xsC5a, xsC5b]
    ∧ Acq400.read_channels devC5m netC5m [1, 2] (-1)
      = .ok (([1, 2] : List Nat).map (fun ch => yssC5.getD (ch - 1) [])) :=
  ⟨claim_C5.1 devC5d netC5d xsC5a xsC5b (by decide) rfl (by decide) (by decide)
      (by decide) (by decide) (by decide) (by decide) (by decide) (by decide),
   claim_C5.2 devC5m netC5m [1, 2] yssC5 2 (-1) rfl rfl (by decide) (by decide)
      (by decide) (by decide) (by decide)⟩

/-!
## Acq400 construction and the per-address cache
(`acq400.py` lines 355-431)

`netclient.Siteclient` lives outside `src/`.  Modelled from the spec:
`open(address, port)` "establishes a TCP connection; fails with
ConnectionError on refusal/timeout", and each per-site service thread
is joined with a 10 s budget - so whether a declared site's service
resolves within its budget is an environment input (`resolves`), and
the success of the synchronous site-0 control connection is `s0ok`.
On a cache hit `self.__dict__ = Acq400.uuts[_uut]` makes the new
wrapper share the cached instance state wholesale, which the embedding
renders as returning the cached `UutState` itself.
-/

/-- Environment of one `Acq400.__init__` run. -/
structure SiteEnv where
  s0ok : Bool
  sitelist : List Nat
  resolves : Nat → Bool
  s0state : Status

/-- The per-instance state `Acq400.__init__` builds (the fields the
claims consult). -/
structure UutState where
  uut : String
  svcSites : List Nat
  mod_count : Nat
  statmon : Option MonState
  cal_eslo : List Rat
  cal_eoff : List Rat
  deriving DecidableEq

/-- Lookup in the process-wide `Acq400.uuts` registry. -/
def regFind : List (String × UutState) → String → Option UutState
  | [], _ => none
  | (a, u) :: r, addr => if a = addr then some u else regFind r addr

/-- The cache-miss body of `Acq400.__init__`: open site 0 (fatal on
failure), enumerate `SITELIST`, spawn one `init_site_client` thread per
declared site and join each with the 10 s budget; a site whose
connection resolves lands in `svc`/`modules` and bumps `mod_count`, a
site that does not is simply absent.  `s0.state` seeds the
`Statusmonitor` when `monitor` is set. -/
def Acq400.construct (addr : String) (env : SiteEnv) (monitor : Bool) : Option UutState :=
  if env.s0ok then
    some { uut := addr,
           svcSites := env.sitelist.filter env.resolves,
           mod_count := (env.sitelist.filter env.resolves).length,
           statmon := if monitor then some (Statusmonitor.init env.s0state) else none,
           cal_eslo := [0],
           cal_eoff := [0] }
  else none

/-- `Acq400.__init__` with the `Acq400.uuts` cache: a hit returns the
registered instance unchanged (whatever `monitor` or the environment
now say); a miss constructs and registers.  The returned flag records
whether construction (discovery + monitor start) actually ran. -/
def Acq400.init (uuts : List (String × UutState)) (addr : String)
    (env : SiteEnv) (monitor : Bool) :
    Option (List (String × UutState) × UutState × Bool) :=
  match regFind uuts addr with
  | some u => some (uuts, u, false)
  | none =>
    match Acq400.construct addr env monitor with
    | some u => some ((addr, u) :: uuts, u, true)
    | none => none

/-- C7: opening is idempotent per address.  The first open for an
unregistered address constructs (site discovery, status monitor) and
registers the instance; any later open of the same address returns that
same live instance with no re-discovery and no second monitor
(construction flag `false`), leaving the registry unchanged. -/
theorem claim_C7 :
    (∀ (uuts : List (String × UutState)) (addr : String) (env : SiteEnv) (monitor : Bool),
      regFind uuts addr = none → env.s0ok = true →
      ∃ u, Acq400.init uuts addr env monitor = some ((addr, u) :: uuts, u, true)
        ∧ u.statmon = (if monitor then some (Statusmonitor.init env.s0state) else none))
    ∧ (∀ (uuts uuts1 : List (String × UutState)) (addr : String)
        (env env' : SiteEnv) (monitor monitor' : Bool) (u1 : UutState) (b1 : Bool),
      Acq400.init uuts addr env monitor = some (uuts1, u1, b1) →
      Acq400.init uuts1 addr env' monitor' = some (uuts1, u1, false)) := by
  constructor
  · intro uuts addr env monitor hfind hs0
    rw [Acq400.init, hfind, Acq400.construct, if_pos hs0]
    exact ⟨_, rfl, rfl⟩
  · intro uuts uuts1 addr env env' monitor monitor' u1 b1 h
    rw [Acq400.init] at h
    cases hfind : regFind uuts addr with
    | some u =>
      rw [hfind] at h
      have h1 : uuts = uuts1 := congrArg (·.1) (Option.some.inj h)
      have h2 : u = u1 := congrArg (·.2.1) (Option.some.inj h)
      subst h1
      subst h2
      rw [Acq400.init, hfind]
    | none =>
      rw [hfind] at h
      cases hcon : Acq400.construct addr env monitor with
      | some u =>
        rw [hcon] at h
        have h1 : (addr, u) :: uuts = uuts1 := congrArg (·.1) (Option.some.inj h)
        have h2 : u = u1 := congrArg (·.2.1) (Option.some.inj h)
        subst h2
        rw [← h1, Acq400.init]
        simp [regFind]
      | none =>
        rw [hcon] at h
        exact absurd h (by simp)

/-- Concrete environment whose one declared site resolves. -/
def envC7 : SiteEnv :=
  { s0ok := true, sitelist := [1], resolves := fun _ => true,
    s0state := ⟨0, 0, 0, 0, 0⟩ }

/-- The instance `Acq400.construct` builds from `envC7`. -/
def uutC7 : UutState :=
  { uut := "uut1", svcSites := [1], mod_count := 1,
    statmon := some (Statusmonitor.init ⟨0, 0, 0, 0, 0⟩),
    cal_eslo := [0], cal_eoff := [0] }

theorem claim_C7_witness :
    (∃ u, Acq400.init [] "uut1" envC7 true = some (("uut1", u) :: [], u, true)
      ∧ u.statmon = (if true then some (Statusmonitor.init envC7.s0state) else none))
    ∧ Acq400.init [("uut1", uutC7)] "uut1" envC7 false
        = some ([("uut1", uutC7)], uutC7, false) :=
  ⟨claim_C7.1 [] "uut1" envC7 true rfl rfl,
   claim_C7.2 [] [("uut1", uutC7)] "uut1" envC7 envC7 true false uutC7 true (by decide)⟩

theorem length_filter_add_length_filter_not (l : List Nat) (p : Nat → Bool) :
    (l.filter p).length + (l.filter (fun s => ! p s)).length = l.length := by
  induction l with
  | nil => rfl
  | cons a l ih =>
    cases h : p a <;> simp [List.filter_cons, h] <;> omega

/-- One declared site, whose service never resolves within its join
budget, under a healthy site-0 connection. -/
def envC8z : SiteEnv :=
  { s0ok := true, sitelist := [3], resolves := fun _ => false,
    s0state := ⟨0, 0, 0, 0, 0⟩ }

/-- The instance that open builds from `envC8z`: zero populated sites. -/
def uutC8z : UutState :=
  { uut := "b", svcSites := [], mod_count := 0,
    statmon := some (Statusmonitor.init ⟨0, 0, 0, 0, 0⟩),
    cal_eslo := [0], cal_eoff := [0] }

/-- C8 (counterexample): with every declared site timing out (zero
sites resolve), the open still succeeds - nothing in `Acq400.__init__`
checks that any site service resolved, so the claim's "if zero sites
resolve the open fails" is false on the code. -/
theorem claim_C8_counterexample :
    Acq400.init [] "b" envC8z true = some ([("b", uutC8z)], uutC8z, true)
    ∧ uutC8z.mod_count = 0 := by
  constructor
  · rfl
  · rfl

/-- C8 (amended): after site 0 enumerates the declared sites, the site
services are opened concurrently, each joined with a 10 s budget; a
site that fails to resolve is simply absent and the open succeeds with
the remaining sites (K declared with exactly one timeout populate K-1),
but the open also succeeds when zero sites resolve - it fails only when
the site-0 control connection itself fails. -/
theorem claim_C8_amended :
    (∀ (addr : String) (env : SiteEnv) (monitor : Bool),
      env.s0ok = true →
      ∃ u, Acq400.construct addr env monitor = some u
        ∧ u.svcSites = env.sitelist.filter env.resolves
        ∧ u.mod_count = (env.sitelist.filter env.resolves).length
        ∧ u.mod_count + (env.sitelist.filter (fun s => ! env.resolves s)).length
            = env.sitelist.length
        ∧ ((env.sitelist.filter (fun s => ! env.resolves s)).length = 1 →
            u.mod_count + 1 = env.sitelist.length))
    ∧ (∀ (addr : String) (env : SiteEnv) (monitor : Bool),
      env.s0ok = false → Acq400.construct addr env monitor = none) := by
  constructor
  · intro addr env monitor hs0
    rw [Acq400.construct, if_pos hs0]
    refine ⟨_, rfl, rfl, rfl, ?_, ?_⟩
    · exact length_filter_add_length_filter_not env.sitelist env.resolves
    · intro h1
      have h := length_filter_add_length_filter_not env.sitelist env.resolves
      show (env.sitelist.filter env.resolves).length + 1 = env.sitelist.length
      omega
  · intro addr env monitor hs0
    rw [Acq400.construct, if_neg (by rw [hs0]; simp)]

/-- Three declared sites of which exactly one (site 2) times out. -/
def envC8w : SiteEnv :=
  { s0ok := true, sitelist := [1, 2, 3], resolves := fun s => s != 2,
    s0state := ⟨0, 0, 0, 0, 0⟩ }

/-- Environment whose site-0 control connection fails. -/
def envC8f : SiteEnv :=
  { s0ok := false, sitelist := [1, 2, 3], resolves := fun _ => true,
    s0state := ⟨0, 0, 0, 0, 0⟩ }

theorem claim_C8_amended_witness :
    (∃ u, Acq400.construct "a" envC8w true = some u
      ∧ u.svcSites = envC8w.sitelist.filter envC8w.resolves
      ∧ u.mod_count = (envC8w.sitelist.filter envC8w.resolves).length
      ∧ u.mod_count + (envC8w.sitelist.filter (fun s => ! envC8w.resolves s)).length
          = envC8w.sitelist.length
      ∧ ((envC8w.sitelist.filter (fun s => ! envC8w.resolves s)).length = 1 →
          u.mod_count + 1 = envC8w.sitelist.length))
    ∧ Acq400.construct "a" envC8f true = none :=
  ⟨claim_C8_amended.1 "a" envC8w true rfl, claim_C8_amended.2 "a" envC8f true rfl⟩

/-!
## Calibration (`acq400.py` lines 457-493)

`chan2volts` runs `float(...)` over the stored calibration strings and
NumPy float arithmetic; numbers are modelled as rationals, so the
affine formula itself is exact.  `get_aggregator_sites()` yields the
aggregated modules in order; each module reports its per-channel
`AI_CAL_ESLO`/`AI_CAL_EOFF` entries (the `[3:]` slice of the response).
-/

/-- Calibration entries one aggregated module reports. -/
structure CalModule where
  eslo : List Rat
  eoff : List Rat

/-- The aggregated modules, in `get_aggregator_sites()` order. -/
structure CalEnv where
  modules : List CalModule

/-- All per-channel scale entries, concatenated in module order
(channel 1 first). -/
def CalEnv.esloAll (env : CalEnv) : List Rat :=
  (env.modules.map CalModule.eslo).join

/-- All per-channel offset entries, concatenated in module order. -/
def CalEnv.eoffAll (env : CalEnv) : List Rat :=
  (env.modules.map CalModule.eoff).join

/-- The two device-wide calibration vectors (channel index from 1;
slot 0 is the `[0, ]` initializer). -/
structure CalState where
  cal_eslo : List Rat
  cal_eoff : List Rat
  deriving DecidableEq

/-- `self.cal_eslo = [0, ]; self.cal_eoff = [0, ]` from
`Acq400.__init__`. -/
def calInit : CalState := { cal_eslo := [0], cal_eoff := [0] }

/-- `Acq400.fetch_all_calibration`: for each aggregated module extend
`cal_eslo` with its scale entries and `cal_eoff` with its offset
entries; extending module-by-module equals appending the concatenated
entry lists. -/
def Acq400.fetch_all_calibration (env : CalEnv) (st : CalState) : CalState :=
  { cal_eslo := st.cal_eslo ++ CalEnv.esloAll env,
    cal_eoff := st.cal_eoff ++ CalEnv.eoffAll env }

/-- `Acq400.chan2volts(chan, raw)`: fetch the calibration vectors first
if they still hold only the initializer (`len == 1`), then return
`raw * cal_eslo[chan] + cal_eoff[chan]` together with the (possibly
updated) vectors.  The claims keep `chan` within bounds, so `getD`'s
default never surfaces (Python would raise IndexError there). -/
def Acq400.chan2volts (env : CalEnv) (st : CalState) (chan : Nat) (raw : Rat) :
    Rat × CalState :=
  let st1 := if st.cal_eslo.length = 1 then Acq400.fetch_all_calibration env st else st
  (raw * st1.cal_eslo.getD chan 0 + st1.cal_eoff.getD chan 0, st1)

/-- C9: the calibration vectors are populated lazily by the first
`chan2volts` call (one fetch), sized to the aggregate channel count
plus the index-0 slot, never re-fetched once populated, and the
returned value is `raw * scale[chan] + offset[chan]` where
`scale`/`offset` are the device-reported entries for that 1-based
channel. -/
theorem claim_C9 (env : CalEnv) (chan chan2 : Nat) (raw raw2 : Rat)
    (hagg : 1 ≤ (CalEnv.esloAll env).length)
    (heq : (CalEnv.eoffAll env).length = (CalEnv.esloAll env).length)
    (h1 : 1 ≤ chan) (h2 : chan ≤ (CalEnv.esloAll env).length) :
    (Acq400.chan2volts env calInit chan raw).2 = Acq400.fetch_all_calibration env calInit
    ∧ (Acq400.chan2volts env calInit chan raw).2.cal_eslo.length
        = (CalEnv.esloAll env).length + 1
    ∧ (Acq400.chan2volts env calInit chan raw).2.cal_eoff.length
        = (CalEnv.esloAll env).length + 1
    ∧ (Acq400.chan2volts env (Acq400.fetch_all_calibration env calInit) chan2 raw2).2
        = Acq400.fetch_all_calibration env calInit
    ∧ (Acq400.chan2volts env calInit chan raw).1
        = raw * (CalEnv.esloAll env).getD (chan - 1) 0
          + (CalEnv.eoffAll env).getD (chan - 1) 0 := by
  obtain ⟨k, rfl⟩ : ∃ k, chan = k + 1 := ⟨chan - 1, by omega⟩
  have hcond : calInit.cal_eslo.length = 1 := rfl
  have he : (Acq400.fetch_all_calibration env calInit).cal_eslo
      = 0 :: CalEnv.esloAll env := rfl
  have ho : (Acq400.fetch_all_calibration env calInit).cal_eoff
      = 0 :: CalEnv.eoffAll env := rfl
  have hfirst : (Acq400.chan2volts env calInit (k + 1) raw).2
      = Acq400.fetch_all_calibration env calInit := by
    rw [Acq400.chan2volts, if_pos hcond]
  have hlen1 : (Acq400.fetch_all_calibration env calInit).cal_eslo.length
      = (CalEnv.esloAll env).length + 1 := by
    rw [he]
    simp
  have hlen2 : (Acq400.fetch_all_calibration env calInit).cal_eoff.length
      = (CalEnv.esloAll env).length + 1 := by
    rw [ho]
    simp [heq]
  refine ⟨hfirst, by rw [hfirst, hlen1], by rw [hfirst, hlen2], ?_, ?_⟩
  · rw [Acq400.chan2volts, if_neg (by rw [hlen1]; omega)]
  · rw [Acq400.chan2volts, if_pos hcond]
    simp only [he, ho, List.getD_cons_succ, Nat.add_sub_cancel]

/-- One aggregated module reporting two channels. -/
def envC9 : CalEnv := { modules := [{ eslo := [2, 3], eoff := [5, 7] }] }

theorem claim_C9_witness :
    (Acq400.chan2volts envC9 calInit 1 10).2 = Acq400.fetch_all_calibration envC9 calInit
    ∧ (Acq400.chan2volts envC9 calInit 1 10).2.cal_eslo.length
        = (CalEnv.esloAll envC9).length + 1
    ∧ (Acq400.chan2volts envC9 calInit 1 10).2.cal_eoff.length
        = (CalEnv.esloAll envC9).length + 1
    ∧ (Acq400.chan2volts envC9 (Acq400.fetch_all_calibration envC9 calInit) 2 20).2
        = Acq400.fetch_all_calibration envC9 calInit
    ∧ (Acq400.chan2volts envC9 calInit 1 10).1
        = 10 * (CalEnv.esloAll envC9).getD 0 0 + (CalEnv.eoffAll envC9).getD 0 0 :=
  claim_C9 envC9 1 2 10 20 (by decide) (by decide) (by decide) (by decide)
